import Mathlib

/-!
Verification of the segment-extraction and timeline-mutation core of the
`vse_utils` Blender VSE addon (`__init__.py`), against its specification.

The Python source is shallowly embedded:
* `find_segments` and `process_segmentation_data` become pure Lean
  functions over lists (times as rationals);
* the host strip collection becomes an explicit `SeqState` record, and
  the `split_selected` operator a state-transformer over it;
* Python `int()` (truncation toward zero) and `round(x, 3)`
  (banker's rounding at 3 decimals) are modelled exactly over `ℚ`.
-/

/-! ## Segment Extractor: `find_segments` (source lines 599-624)

The Python scans the array left to right carrying `start : Option ℕ`,
the index at which the current run of 1s opened.  On a non-1 value with
an open run it emits `(start, i - 1)`; a run still open at the end of
the array is closed at `len(arr) - 1`. -/

/-- The scanning loop of `find_segments`: `i` is the index of the head of
`l` in the original array, `st` the open-run start (Python's `start`). -/
def findSegmentsGo (i : ℕ) (st : Option ℕ) : List ℕ → List (ℕ × ℕ)
  | [] =>
    match st with
    | none => []
    | some s => [(s, i - 1)]
  | v :: rest =>
    if v = 1 then
      match st with
      | none => findSegmentsGo (i + 1) (some i) rest
      | some s => findSegmentsGo (i + 1) (some s) rest
    else
      match st with
      | none => findSegmentsGo (i + 1) none rest
      | some s => (s, i - 1) :: findSegmentsGo (i + 1) none rest

/-- `find_segments(arr)`: start and end indices (inclusive) of the maximal
runs of consecutive 1s in `arr`. -/
def find_segments (arr : List ℕ) : List (ℕ × ℕ) :=
  findSegmentsGo 0 none arr

example : find_segments [0, 0, 1, 1, 1, 0, 1] = [(2, 4), (6, 6)] := by decide

example : find_segments [0, 0, 0] = [] := by decide

example : find_segments [1, 1, 1] = [(0, 2)] := by decide

example : find_segments [] = [] := by decide

example : find_segments [1, 0, 1] = [(0, 0), (2, 2)] := by decide

/-- Unfolding: a `1` with no open run opens a run at `i`. -/
theorem findSegmentsGo_one_none (i : ℕ) (rest : List ℕ) :
    findSegmentsGo i none (1 :: rest) = findSegmentsGo (i + 1) (some i) rest := by
  simp [findSegmentsGo]

/-- Unfolding: a `1` inside an open run keeps the run open. -/
theorem findSegmentsGo_one_some (i s : ℕ) (rest : List ℕ) :
    findSegmentsGo i (some s) (1 :: rest) = findSegmentsGo (i + 1) (some s) rest := by
  simp [findSegmentsGo]

/-- Unfolding: a non-`1` with no open run is skipped. -/
theorem findSegmentsGo_ne_none (i v : ℕ) (rest : List ℕ) (hv : v ≠ 1) :
    findSegmentsGo i none (v :: rest) = findSegmentsGo (i + 1) none rest := by
  simp [findSegmentsGo, hv]

/-- Unfolding: a non-`1` closes the open run at `i - 1`. -/
theorem findSegmentsGo_ne_some (i s v : ℕ) (rest : List ℕ) (hv : v ≠ 1) :
    findSegmentsGo i (some s) (v :: rest) =
      (s, i - 1) :: findSegmentsGo (i + 1) none rest := by
  simp [findSegmentsGo, hv]

/-- Structural invariants of the scanning loop, proved in one induction:
every emitted pair is bounded below by the open-run start (or `i`),
well-formed (`fst ≤ snd`) and bounded above by the end of the array;
emitted pairs are pairwise separated by a gap; and an index `j` is
covered by some emitted pair iff it lies in the still-open run or the
remaining input holds a `1` at `j`. -/
theorem findSegmentsGo_spec (l : List ℕ) :
    ∀ (i : ℕ) (st : Option ℕ), (∀ s, st = some s → s < i) →
      ((∀ p ∈ findSegmentsGo i st l,
          st.getD i ≤ p.1 ∧ p.1 ≤ p.2 ∧ p.2 + 1 ≤ i + l.length) ∧
        List.Pairwise (fun p q : ℕ × ℕ => p.2 + 1 < q.1) (findSegmentsGo i st l) ∧
        (∀ j : ℕ, (∃ p ∈ findSegmentsGo i st l, p.1 ≤ j ∧ j ≤ p.2) ↔
          ((∃ s, st = some s ∧ s ≤ j ∧ j < i) ∨ (i ≤ j ∧ l[j - i]? = some 1)))) := by
  induction l with
  | nil =>
    intro i st hst
    cases st with
    | none => simp [findSegmentsGo]
    | some s =>
      have hs : s < i := hst s rfl
      refine ⟨?_, ?_, ?_⟩
      · intro p hp
        simp only [findSegmentsGo, List.mem_singleton] at hp
        subst hp
        simp only [Option.getD_some]
        omega
      · simp [findSegmentsGo]
      · intro j
        simp only [findSegmentsGo, List.mem_singleton, List.getElem?_nil]
        constructor
        · rintro ⟨p, rfl, h1, h2⟩
          exact Or.inl ⟨s, rfl, h1, by omega⟩
        · rintro (⟨s', hs', h1, h2⟩ | ⟨_, h⟩)
          · rw [Option.some.injEq] at hs'
            subst hs'
            exact ⟨(s, i - 1), rfl, h1, by omega⟩
          · simp at h
  | cons v rest ih =>
    intro i st hst
    by_cases hv : v = 1
    · subst hv
      cases st with
      | none =>
        have hih := ih (i + 1) (some i) (by intro s h; injection h with h; omega)
        rw [findSegmentsGo_one_none]
        refine ⟨?_, hih.2.1, ?_⟩
        · intro p hp
          have := hih.1 p hp
          simp only [Option.getD_some] at this
          simp only [Option.getD_none, List.length_cons]
          omega
        · intro j
          rw [hih.2.2 j]
          constructor
          · rintro (⟨s, hs, h1, h2⟩ | ⟨h1, h2⟩)
            · rw [Option.some.injEq] at hs
              subst hs
              refine Or.inr ⟨by omega, ?_⟩
              have hj : j - i = 0 := by omega
              rw [hj]
              simp
            · refine Or.inr ⟨by omega, ?_⟩
              have hj : j - i = (j - (i + 1)) + 1 := by omega
              rw [hj]
              simpa using h2
          · rintro (⟨s, hs, h1, h2⟩ | ⟨h1, h2⟩)
            · exact absurd hs (by simp)
            · rcases Nat.eq_or_lt_of_le h1 with h | h
              · exact Or.inl ⟨i, rfl, by omega, by omega⟩
              · refine Or.inr ⟨by omega, ?_⟩
                have hj : j - i = (j - (i + 1)) + 1 := by omega
                rw [hj] at h2
                simpa using h2
      | some s =>
        have hs : s < i := hst s rfl
        have hih := ih (i + 1) (some s) (by intro s' h; injection h with h; omega)
        rw [findSegmentsGo_one_some]
        refine ⟨?_, hih.2.1, ?_⟩
        · intro p hp
          have := hih.1 p hp
          simp only [Option.getD_some] at this ⊢
          simp only [List.length_cons]
          omega
        · intro j
          rw [hih.2.2 j]
          constructor
          · rintro (⟨s', hs', h1, h2⟩ | ⟨h1, h2⟩)
            · rw [Option.some.injEq] at hs'
              subst hs'
              rcases Nat.lt_or_ge j i with h | h
              · exact Or.inl ⟨s, rfl, h1, h⟩
              · have hj : j = i := by omega
                subst hj
                refine Or.inr ⟨le_refl _, ?_⟩
                simp
            · refine Or.inr ⟨by omega, ?_⟩
              have hj : j - i = (j - (i + 1)) + 1 := by omega
              rw [hj]
              simpa using h2
          · rintro (⟨s', hs', h1, h2⟩ | ⟨h1, h2⟩)
            · rw [Option.some.injEq] at hs'
              subst hs'
              exact Or.inl ⟨s, rfl, h1, by omega⟩
            · rcases Nat.eq_or_lt_of_le h1 with h | h
              · exact Or.inl ⟨s, rfl, by omega, by omega⟩
              · refine Or.inr ⟨by omega, ?_⟩
                have hj : j - i = (j - (i + 1)) + 1 := by omega
                rw [hj] at h2
                simpa using h2
    · cases st with
      | none =>
        have hih := ih (i + 1) none (by intro s h; exact absurd h (by simp))
        rw [findSegmentsGo_ne_none i v rest hv]
        refine ⟨?_, hih.2.1, ?_⟩
        · intro p hp
          have := hih.1 p hp
          simp only [Option.getD_none] at this ⊢
          simp only [List.length_cons]
          omega
        · intro j
          rw [hih.2.2 j]
          constructor
          · rintro (⟨s, hs, h1, h2⟩ | ⟨h1, h2⟩)
            · exact absurd hs (by simp)
            · refine Or.inr ⟨by omega, ?_⟩
              have hj : j - i = (j - (i + 1)) + 1 := by omega
              rw [hj]
              simpa using h2
          · rintro (⟨s, hs, h1, h2⟩ | ⟨h1, h2⟩)
            · exact absurd hs (by simp)
            · rcases Nat.eq_or_lt_of_le h1 with h | h
              · exfalso
                have hj : j - i = 0 := by omega
                rw [hj] at h2
                simp only [List.getElem?_cons_zero, Option.some.injEq] at h2
                exact hv h2
              · refine Or.inr ⟨by omega, ?_⟩
                have hj : j - i = (j - (i + 1)) + 1 := by omega
                rw [hj] at h2
                simpa using h2
      | some s =>
        have hs : s < i := hst s rfl
        have hih := ih (i + 1) none (by intro s' h; exact absurd h (by simp))
        rw [findSegmentsGo_ne_some i s v rest hv]
        refine ⟨?_, ?_, ?_⟩
        · intro p hp
          rcases List.mem_cons.mp hp with h | h
          · subst h
            simp only [Option.getD_some, List.length_cons]
            omega
          · have := hih.1 p h
            simp only [Option.getD_none] at this
            simp only [Option.getD_some, List.length_cons]
            omega
        · refine List.Pairwise.cons ?_ hih.2.1
          intro q hq
          have := hih.1 q hq
          simp only [Option.getD_none] at this
          omega
        · intro j
          simp only [List.mem_cons]
          constructor
          · rintro ⟨p, hp | hp, h1, h2⟩
            · subst hp
              exact Or.inl ⟨s, rfl, h1, by omega⟩
            · have := (hih.2.2 j).mp ⟨p, hp, h1, h2⟩
              rcases this with ⟨s', hs', _, _⟩ | ⟨h3, h4⟩
              · exact absurd hs' (by simp)
              · refine Or.inr ⟨by omega, ?_⟩
                have hj : j - i = (j - (i + 1)) + 1 := by omega
                rw [hj]
                simpa using h4
          · rintro (⟨s', hs', h1, h2⟩ | ⟨h1, h2⟩)
            · rw [Option.some.injEq] at hs'
              subst hs'
              exact ⟨(s, i - 1), Or.inl rfl, h1, by omega⟩
            · rcases Nat.eq_or_lt_of_le h1 with h | h
              · exfalso
                have hj : j - i = 0 := by omega
                rw [hj] at h2
                simp only [List.getElem?_cons_zero, Option.some.injEq] at h2
                exact hv h2
              · have h4 : rest[j - (i + 1)]? = some 1 := by
                  have hj : j - i = (j - (i + 1)) + 1 := by omega
                  rw [hj] at h2
                  simpa using h2
                obtain ⟨p, hp, hp1, hp2⟩ :=
                  (hih.2.2 j).mpr (Or.inr ⟨by omega, h4⟩)
                exact ⟨p, Or.inr hp, hp1, hp2⟩

/-- An index is covered by a returned run iff the array holds a `1` there. -/
theorem find_segments_mem_iff (arr : List ℕ) (j : ℕ) :
    (∃ p ∈ find_segments arr, p.1 ≤ j ∧ j ≤ p.2) ↔ arr[j]? = some 1 := by
  have h := (findSegmentsGo_spec arr 0 none (by intro s hs; exact absurd hs (by simp))).2.2 j
  rw [find_segments, h]
  constructor
  · rintro (⟨s, hs, _, _⟩ | ⟨_, h2⟩)
    · exact absurd hs (by simp)
    · simpa using h2
  · intro h2
    exact Or.inr ⟨Nat.zero_le j, by simpa using h2⟩

/-- Returned runs are separated by at least one index: no two returned
ranges overlap or even touch. -/
theorem find_segments_pairwise_gap (arr : List ℕ) :
    List.Pairwise (fun p q : ℕ × ℕ => p.2 + 1 < q.1) (find_segments arr) :=
  (findSegmentsGo_spec arr 0 none (by intro s hs; exact absurd hs (by simp))).2.1

/-- Every returned run is well-formed and in bounds. -/
theorem find_segments_bounds (arr : List ℕ) :
    ∀ p ∈ find_segments arr, p.1 ≤ p.2 ∧ p.2 < arr.length := by
  intro p hp
  have h := (findSegmentsGo_spec arr 0 none (by intro s hs; exact absurd hs (by simp))).1 p hp
  omega

/-- The scan of an all-zero tail emits nothing when no run is open. -/
theorem findSegmentsGo_replicate_zero (n : ℕ) :
    ∀ i : ℕ, findSegmentsGo i none (List.replicate n 0) = [] := by
  induction n with
  | zero => intro i; simp [findSegmentsGo]
  | succ m ihm =>
    intro i
    rw [List.replicate_succ, findSegmentsGo_ne_none i 0 _ (by decide)]
    exact ihm (i + 1)

/-- The scan of an all-one tail with an open run at `s` emits the single
run `(s, i + n - 1)`. -/
theorem findSegmentsGo_replicate_one (n : ℕ) :
    ∀ i s : ℕ, findSegmentsGo i (some s) (List.replicate n 1) = [(s, i + n - 1)] := by
  induction n with
  | zero => intro i s; simp [findSegmentsGo]
  | succ m ihm =>
    intro i s
    rw [List.replicate_succ, findSegmentsGo_one_some, ihm (i + 1) s]
    have h : i + 1 + m - 1 = i + (m + 1) - 1 := by omega
    rw [h]

/-- The all-zero array yields no runs. -/
theorem find_segments_replicate_zero (n : ℕ) :
    find_segments (List.replicate n 0) = [] :=
  findSegmentsGo_replicate_zero n 0

/-- The all-one array of positive length `n` yields the single run
`(0, n - 1)`. -/
theorem find_segments_replicate_one (n : ℕ) (h : 0 < n) :
    find_segments (List.replicate n 1) = [(0, n - 1)] := by
  obtain ⟨m, rfl⟩ : ∃ m, n = m + 1 := ⟨n - 1, by omega⟩
  rw [find_segments, List.replicate_succ, findSegmentsGo_one_none,
    findSegmentsGo_replicate_one m 1 0]
  have h1 : 1 + m - 1 = m + 1 - 1 := by omega
  rw [h1]

/-- C1: `find_segments` returns exactly the maximal runs of consecutive
1s as inclusive index pairs: an index is covered by a returned run iff
the array value there is 1; no two returned runs overlap or touch; the
all-zero array yields `[]`; the all-one array of length `n > 0` yields
`[(0, n - 1)]`; and `[0,0,1,1,1,0,1]` yields `[(2,4),(6,6)]`. -/
theorem find_segments_correct (arr : List ℕ) (n : ℕ) (hn : 0 < n) :
    (∀ j : ℕ, (∃ p ∈ find_segments arr, p.1 ≤ j ∧ j ≤ p.2) ↔ arr[j]? = some 1) ∧
    List.Pairwise (fun p q : ℕ × ℕ => p.2 + 1 < q.1) (find_segments arr) ∧
    find_segments (List.replicate n 0) = [] ∧
    find_segments (List.replicate n 1) = [(0, n - 1)] ∧
    find_segments [0, 0, 1, 1, 1, 0, 1] = [(2, 4), (6, 6)] :=
  ⟨fun j => find_segments_mem_iff arr j, find_segments_pairwise_gap arr,
    find_segments_replicate_zero n, find_segments_replicate_one n hn, by decide⟩

/-- Witness for C1 at the concrete array `[0,0,1,1,1,0,1]` and `n = 7`. -/
theorem find_segments_correct_witness :
    0 < 7 ∧ find_segments [0, 0, 1, 1, 1, 0, 1] = [(2, 4), (6, 6)] :=
  ⟨by decide, (find_segments_correct [0, 0, 1, 1, 1, 0, 1] 7 (by decide)).2.2.2.2⟩

/-! ## Segment Merger: `process_segmentation_data` (source lines 627-661)

Each chunk of the segmentation JSON carries `wav_splits` (sample
windows), a `sampling_rate`, a binary `segments` array and a
`start_time` in seconds.  The Python builds the midpoint-time table
`times`, runs `find_segments` on `segments`, and converts every run
`(start, end)` to `[start_time + tmp_start, start_time + times[end]]`
with `tmp_start = 0 if times[start] < 4 else times[start]`.
Python list indexing (which would raise out of bounds) is modelled by
`List.getD _ 0`; theorems assume `segments` is no longer than
`wav_splits`, under which the two agree. -/

/-- One entry of a chunk's `wav_splits` table. -/
structure WavSplit where
  start : ℚ
  stop : ℚ
deriving DecidableEq

/-- One chunk of the segmentation JSON consumed by
`process_segmentation_data`. -/
structure SegChunk where
  wav_splits : List WavSplit
  sampling_rate : ℚ
  segments : List ℕ
  start_time : ℚ
deriving DecidableEq

/-- The `times` table: midpoint of each `wav_splits` window over the
sampling rate (source line 646). -/
def chunkTimes (v : SegChunk) : List ℚ :=
  v.wav_splits.map (fun s => ((s.start + s.stop) / 2) / v.sampling_rate)

/-- The per-chunk body of `process_segmentation_data` (source lines
652-657): one time pair per run of `find_segments`. -/
def processChunk (v : SegChunk) : List (ℚ × ℚ) :=
  (find_segments v.segments).map (fun p =>
    ((v.start_time +
        (if (chunkTimes v).getD p.1 0 < 4 then 0 else (chunkTimes v).getD p.1 0)),
      v.start_time + (chunkTimes v).getD p.2 0))

/-- `process_segmentation_data(data)`: one time-pair list per chunk. -/
def process_segmentation_data (data : List SegChunk) : List (List (ℚ × ℚ)) :=
  data.map processChunk

example :
    process_segmentation_data
      [⟨[⟨0, 2⟩, ⟨1, 3⟩, ⟨2, 4⟩], 1, [1, 0, 1], 0⟩] = [[(0, 1), (0, 3)]] := by
  norm_num [process_segmentation_data, processChunk, chunkTimes, find_segments,
    findSegmentsGo, List.getD]

/-- In-bounds `times` lookups are the midpoint formula of the
corresponding `wav_splits` entry. -/
theorem chunkTimes_getD (v : SegChunk) (i : ℕ) (w : WavSplit)
    (hw : v.wav_splits[i]? = some w) :
    (chunkTimes v).getD i 0 = ((w.start + w.stop) / 2) / v.sampling_rate := by
  rw [List.getD_eq_getElem?_getD, chunkTimes, List.getElem?_map, hw]
  rfl

/-- C8: each run `(start, end)` of a chunk is emitted as the pair whose
end is `start_time` plus the midpoint time of `end`, and whose start is
`start_time` (snapped) when the midpoint time of `start` is below the
4-second threshold, else `start_time` plus that midpoint time; the
midpoint time of index `i` is `((wav_splits[i].start + wav_splits[i].stop) / 2)
/ sampling_rate`. -/
theorem process_segmentation_data_run_times (data : List SegChunk) (v : SegChunk)
    (hv : v ∈ data) (hlen : v.segments.length ≤ v.wav_splits.length)
    (k : ℕ) (p : ℕ × ℕ) (hp : (find_segments v.segments)[k]? = some p) :
    processChunk v ∈ process_segmentation_data data ∧
    ∃ w1 w2 : WavSplit,
      v.wav_splits[p.1]? = some w1 ∧ v.wav_splits[p.2]? = some w2 ∧
      (processChunk v)[k]? = some
        (v.start_time +
            (if ((w1.start + w1.stop) / 2) / v.sampling_rate < 4 then 0
              else ((w1.start + w1.stop) / 2) / v.sampling_rate),
          v.start_time + ((w2.start + w2.stop) / 2) / v.sampling_rate) := by
  have hmem : p ∈ find_segments v.segments := by
    obtain ⟨hlt, rfl⟩ := List.getElem?_eq_some.mp hp
    exact List.getElem_mem hlt
  have hb := find_segments_bounds v.segments p hmem
  have h1 : p.1 < v.wav_splits.length := by omega
  have h2 : p.2 < v.wav_splits.length := by omega
  refine ⟨List.mem_map_of_mem processChunk hv,
    v.wav_splits.get ⟨p.1, h1⟩, v.wav_splits.get ⟨p.2, h2⟩, ?_, ?_, ?_⟩
  · rw [List.getElem?_eq_getElem h1]
    rfl
  · rw [List.getElem?_eq_getElem h2]
    rfl
  · rw [processChunk, List.getElem?_map, hp]
    have e1 : (chunkTimes v).getD p.1 0 =
        (((v.wav_splits.get ⟨p.1, h1⟩).start + (v.wav_splits.get ⟨p.1, h1⟩).stop) / 2)
          / v.sampling_rate :=
      chunkTimes_getD v p.1 _ (by rw [List.getElem?_eq_getElem h1]; rfl)
    have e2 : (chunkTimes v).getD p.2 0 =
        (((v.wav_splits.get ⟨p.2, h2⟩).start + (v.wav_splits.get ⟨p.2, h2⟩).stop) / 2)
          / v.sampling_rate :=
      chunkTimes_getD v p.2 _ (by rw [List.getElem?_eq_getElem h2]; rfl)
    simp only [Option.map_some', e1, e2]

/-- Witness for C8 on a one-chunk input with two wav windows and the
all-one segments array. -/
theorem process_segmentation_data_run_times_witness :
    ((⟨[⟨0, 2⟩, ⟨2, 4⟩], 1, [1, 1], 10⟩ : SegChunk) ∈
        ([⟨[⟨0, 2⟩, ⟨2, 4⟩], 1, [1, 1], 10⟩] : List SegChunk)) ∧
    (([1, 1] : List ℕ).length ≤ ([⟨0, 2⟩, ⟨2, 4⟩] : List WavSplit).length) ∧
    (find_segments [1, 1])[0]? = some (0, 1) ∧
    (processChunk (⟨[⟨0, 2⟩, ⟨2, 4⟩], 1, [1, 1], 10⟩ : SegChunk) ∈
        process_segmentation_data [⟨[⟨0, 2⟩, ⟨2, 4⟩], 1, [1, 1], 10⟩] ∧
      ∃ w1 w2 : WavSplit,
        (([⟨0, 2⟩, ⟨2, 4⟩] : List WavSplit))[(0, 1).1]? = some w1 ∧
        (([⟨0, 2⟩, ⟨2, 4⟩] : List WavSplit))[(0, 1).2]? = some w2 ∧
        (processChunk (⟨[⟨0, 2⟩, ⟨2, 4⟩], 1, [1, 1], 10⟩ : SegChunk))[0]? = some
          ((10 : ℚ) +
              (if ((w1.start + w1.stop) / 2) / (1 : ℚ) < 4 then 0
                else ((w1.start + w1.stop) / 2) / (1 : ℚ)),
            (10 : ℚ) + ((w2.start + w2.stop) / 2) / (1 : ℚ))) :=
  ⟨List.mem_singleton.mpr rfl, by decide, by decide,
    process_segmentation_data_run_times _ _ (List.mem_singleton.mpr rfl)
      (by decide) 0 (0, 1) (by decide)⟩

/-- C2 fails on the code: with chunk-relative midpoint times `[1, 2, 3]`
(all below the 4-second clamp) and binary array `[1, 0, 1]`, both runs
are snapped to the chunk start, so the first pair's end `1` exceeds the
second pair's start `0`: the per-chunk list is neither non-overlapping
nor does it satisfy `end ≤ next start`. -/
theorem process_segmentation_data_overlap_cex :
    process_segmentation_data
        [⟨[⟨0, 2⟩, ⟨1, 3⟩, ⟨2, 4⟩], 1, [1, 0, 1], 0⟩] = [[(0, 1), (0, 3)]] ∧
    ¬ List.Chain' (fun a b : ℚ × ℚ => a.2 ≤ b.1) [((0 : ℚ), (1 : ℚ)), (0, 3)] := by
  constructor
  · norm_num [process_segmentation_data, processChunk, chunkTimes, find_segments,
      findSegmentsGo, List.getD]
  · intro h
    have h1 := (List.chain'_cons.mp h).1
    norm_num at h1

/-- C2 amended: per chunk, provided the midpoint-time table is
nondecreasing and nonnegative and `segments` is no longer than
`wav_splits`, the emitted list has each start at most its own end and
nondecreasing starts; `end ≤ next start` holds for a consecutive pair
whenever the later run is not snapped by the 4-second clamp (its
run-start midpoint time is at least 4); a snapped later run may
overlap its predecessor. -/
theorem processChunk_sorted_amended (v : SegChunk)
    (hsort : List.Sorted (· ≤ ·) (chunkTimes v))
    (hnn : ∀ t ∈ chunkTimes v, 0 ≤ t)
    (hlen : v.segments.length ≤ v.wav_splits.length) :
    (∀ q ∈ processChunk v, q.1 ≤ q.2) ∧
    (∀ k : ℕ, ∀ a b : ℚ × ℚ,
      (processChunk v)[k]? = some a → (processChunk v)[k + 1]? = some b →
      (a.1 ≤ b.1 ∧
        ∀ p2 : ℕ × ℕ, (find_segments v.segments)[k + 1]? = some p2 →
          4 ≤ (chunkTimes v).getD p2.1 0 → a.2 ≤ b.1)) := by
  have hts_len : (chunkTimes v).length = v.wav_splits.length := by
    rw [chunkTimes, List.length_map]
  have hnn' : ∀ i : ℕ, 0 ≤ (chunkTimes v).getD i 0 := by
    intro i
    rcases Nat.lt_or_ge i (chunkTimes v).length with h | h
    · rw [List.getD_eq_getElem?_getD, List.getElem?_eq_getElem h]
      exact hnn _ (List.getElem_mem h)
    · rw [List.getD_eq_getElem?_getD, List.getElem?_eq_none h, Option.getD_none]
  have hmono : ∀ i j : ℕ, i ≤ j → j < (chunkTimes v).length →
      (chunkTimes v).getD i 0 ≤ (chunkTimes v).getD j 0 := by
    intro i j hij hj
    have hi : i < (chunkTimes v).length := lt_of_le_of_lt hij hj
    rw [List.getD_eq_getElem?_getD, List.getElem?_eq_getElem hi,
      List.getD_eq_getElem?_getD, List.getElem?_eq_getElem hj]
    rcases Nat.eq_or_lt_of_le hij with h | h
    · subst h
      exact le_refl _
    · exact hsort.rel_get_of_lt h
  constructor
  · intro q hq
    rw [processChunk] at hq
    obtain ⟨p, hp, rfl⟩ := List.mem_map.mp hq
    have hb := find_segments_bounds v.segments p hp
    have h2 : p.2 < (chunkTimes v).length := by omega
    by_cases hc : (chunkTimes v).getD p.1 0 < 4
    · simp only [if_pos hc]
      have := hnn' p.2
      simp only [add_zero]
      linarith
    · simp only [if_neg hc]
      have := hmono p.1 p.2 (by omega) h2
      linarith
  · intro k a b ha hb
    rw [processChunk, List.getElem?_map] at ha hb
    cases h1 : (find_segments v.segments)[k]? with
    | none =>
      rw [h1] at ha
      exact absurd ha (by simp)
    | some p1 =>
    cases h2 : (find_segments v.segments)[k + 1]? with
    | none =>
      rw [h2] at hb
      exact absurd hb (by simp)
    | some p2 =>
    rw [h1] at ha
    rw [h2] at hb
    simp only [Option.map_some', Option.some.injEq] at ha hb
    subst ha
    subst hb
    obtain ⟨hk1, hg1⟩ := List.getElem?_eq_some.mp h1
    obtain ⟨hk2, hg2⟩ := List.getElem?_eq_some.mp h2
    have hgap : p1.2 + 1 < p2.1 := by
      have := List.pairwise_iff_getElem.mp (find_segments_pairwise_gap v.segments)
        k (k + 1) hk1 hk2 (by omega)
      rw [hg1, hg2] at this
      exact this
    have hb1 := find_segments_bounds v.segments p1 (hg1 ▸ List.getElem_mem hk1)
    have hb2 := find_segments_bounds v.segments p2 (hg2 ▸ List.getElem_mem hk2)
    have hlt2 : p2.1 < (chunkTimes v).length := by omega
    dsimp only
    constructor
    · by_cases hc2 : (chunkTimes v).getD p2.1 0 < 4
      · have hc1 : (chunkTimes v).getD p1.1 0 < 4 := by
          have := hmono p1.1 p2.1 (by omega) hlt2
          linarith
        simp only [if_pos hc1, if_pos hc2]
        exact le_refl _
      · simp only [if_neg hc2]
        by_cases hc1 : (chunkTimes v).getD p1.1 0 < 4
        · simp only [if_pos hc1]
          have := hnn' p2.1
          linarith
        · simp only [if_neg hc1]
          have := hmono p1.1 p2.1 (by omega) hlt2
          linarith
    · intro p2' hp2' hge
      obtain rfl : p2 = p2' := Option.some.inj hp2'
      have hc2 : ¬ (chunkTimes v).getD p2.1 0 < 4 := by linarith
      simp only [if_neg hc2]
      have := hmono p1.2 p2.1 (by omega) hlt2
      linarith

/-- Concrete chunk for the C2 witness: midpoint times `[1, 10]`. -/
def c2chunk : SegChunk := ⟨[⟨0, 2⟩, ⟨8, 12⟩], 1, [1, 1], 5⟩

/-- Witness for the amended C2 on a chunk with sorted nonnegative
midpoint times. -/
theorem processChunk_sorted_amended_witness :
    List.Sorted (· ≤ ·) (chunkTimes c2chunk) ∧
    (∀ t ∈ chunkTimes c2chunk, 0 ≤ t) ∧
    c2chunk.segments.length ≤ c2chunk.wav_splits.length ∧
    ((∀ q ∈ processChunk c2chunk, q.1 ≤ q.2) ∧
      (∀ k : ℕ, ∀ a b : ℚ × ℚ,
        (processChunk c2chunk)[k]? = some a →
        (processChunk c2chunk)[k + 1]? = some b →
        (a.1 ≤ b.1 ∧
          ∀ p2 : ℕ × ℕ, (find_segments c2chunk.segments)[k + 1]? = some p2 →
            4 ≤ (chunkTimes c2chunk).getD p2.1 0 → a.2 ≤ b.1))) := by
  have hs : List.Sorted (· ≤ ·) (chunkTimes c2chunk) := by
    rw [c2chunk, chunkTimes]
    norm_num [List.sorted_cons]
  have hn : ∀ t ∈ chunkTimes c2chunk, 0 ≤ t := by
    intro t ht
    rw [c2chunk, chunkTimes] at ht
    norm_num at ht
    rcases ht with rfl | rfl <;> norm_num
  exact ⟨hs, hn, by decide,
    processChunk_sorted_amended c2chunk hs hn (by decide)⟩

/-! ## Time-Base Converter (spec §4.1; source lines 72-83, 445,
465-466, 730-736)

The source inlines all its conversions.  Python `int()` truncates
toward zero and Python `round(x, 3)` rounds half to even at the third
decimal; both are modelled exactly over `ℚ`. -/

/-- Modelled from the spec: `toFrame(seconds, frameRate) ->
floor(seconds * frameRate)`, the Time-Base Converter contract of §4.1
(the source inlines its conversions instead of defining this
function). -/
def toFrame (s r : ℚ) : ℤ := ⌊s * r⌋

/-- Modelled from the spec: `toSeconds(frame, frameRate) ->
frame / frameRate` (§4.1). -/
def toSeconds (f : ℤ) (r : ℚ) : ℚ := (f : ℚ) / r

/-- Python `int()` on a rational: truncation toward zero. -/
def py_int (q : ℚ) : ℤ := if 0 ≤ q then ⌊q⌋ else ⌈q⌉

/-- Python round-half-to-even of a rational to an integer. -/
def pyRoundInt (q : ℚ) : ℤ :=
  if Int.fract q < 1 / 2 then ⌊q⌋
  else if 1 / 2 < Int.fract q then ⌊q⌋ + 1
  else if Even ⌊q⌋ then ⌊q⌋ else ⌊q⌋ + 1

/-- Python `round(x, 3)`: banker's rounding at the third decimal. -/
def pyRound3 (q : ℚ) : ℚ := (pyRoundInt (q * 1000) : ℚ) / 1000

/-- The frame rate `find_scenes` computes (source line 76):
`round(render.fps / render.fps_base, 3)`. -/
def find_scenes_fps (fps fps_base : ℚ) : ℚ := pyRound3 (fps / fps_base)

/-- The values `find_scenes` hands the detector (source lines 76-81):
`(framerate, seek time, end-time limit)` =
`(fps, start / fps, end / fps)` with the one rounded `fps` of line 76. -/
def find_scenes_calls (fps fps_base start e : ℚ) : ℚ × ℚ × ℚ :=
  (find_scenes_fps fps fps_base, start / find_scenes_fps fps fps_base,
    e / find_scenes_fps fps fps_base)

/-- The frame rate `SEQUENCER_OT_mute_audio_profanity.execute` uses
(source line 445): the raw `render.fps`, with no `fps_base` division
and no rounding. -/
def mute_profanity_fps (fps fps_base : ℚ) : ℚ := fps

/-- Word-boundary frames in the profanity operator (source lines
465-466): `int(word_time * fps)`. -/
def profanity_word_frame (t fps : ℚ) : ℤ := py_int (t * fps)

/-- The frame rate `SpeechSegmentationOperator.execute` uses (source
line 732): the raw `render.fps`, with no `fps_base` division and no
rounding. -/
def speech_segmentation_fps (fps fps_base : ℚ) : ℚ := fps

/-- The symmetric padding delta of the speech-segmentation consumption
path (source line 730). -/
def speechseg_delta : ℚ := 3 / 10

/-- Start frame of a padded segment (source line 735):
`int((t0 - delta) * fps)`. -/
def speechseg_frame_start (t0 fps : ℚ) : ℤ :=
  py_int ((t0 - speechseg_delta) * fps)

/-- End frame of a padded segment (source line 736):
`int((t1 + delta) * fps)`. -/
def speechseg_frame_end (t1 fps : ℚ) : ℤ :=
  py_int ((t1 + speechseg_delta) * fps)

/-- C5 fails on the code: at `t0 = 0`, `fps = 24` the padded start is
`int(-7.2) = -7` (truncation toward zero), not `floor(-7.2) = -8`. -/
theorem speechseg_frame_floor_cex :
    speechseg_frame_start 0 24 = -7 ∧
    toFrame (0 - speechseg_delta) 24 = -8 ∧
    speechseg_frame_start 0 24 ≠ toFrame (0 - speechseg_delta) 24 := by
  refine ⟨?_, ?_, ?_⟩ <;>
    norm_num [speechseg_frame_start, speechseg_delta, py_int, toFrame,
      Int.floor_eq_iff, Int.ceil_eq_iff]

/-- C5 amended: the conversions are Python `int()` truncation toward
zero of `seconds * fps`, which equals `floor(seconds * fps)` exactly
when the product is nonnegative; with the padding delta `0.3` the
padded start can be negative, where truncation exceeds the floor. -/
theorem seconds_to_frame_trunc (t0 t1 t fps : ℚ)
    (h0 : 0 ≤ (t0 - speechseg_delta) * fps)
    (h1 : 0 ≤ (t1 + speechseg_delta) * fps)
    (ht : 0 ≤ t * fps) :
    speechseg_frame_start t0 fps = toFrame (t0 - speechseg_delta) fps ∧
    speechseg_frame_end t1 fps = toFrame (t1 + speechseg_delta) fps ∧
    profanity_word_frame t fps = toFrame t fps := by
  rw [speechseg_frame_start, speechseg_frame_end, profanity_word_frame,
    py_int, py_int, py_int, if_pos h0, if_pos h1, if_pos ht]
  exact ⟨rfl, rfl, rfl⟩

/-- Witness for the amended C5 at `t0 = 1`, `t1 = 0`, `t = 0`,
`fps = 24`. -/
theorem seconds_to_frame_trunc_witness :
    0 ≤ ((1 : ℚ) - speechseg_delta) * 24 ∧
    0 ≤ ((0 : ℚ) + speechseg_delta) * 24 ∧
    0 ≤ (0 : ℚ) * 24 ∧
    (speechseg_frame_start 1 24 = toFrame (1 - speechseg_delta) 24 ∧
      speechseg_frame_end 0 24 = toFrame (0 + speechseg_delta) 24 ∧
      profanity_word_frame 0 24 = toFrame 0 24) :=
  ⟨by norm_num [speechseg_delta], by norm_num [speechseg_delta], by norm_num,
    seconds_to_frame_trunc 1 0 0 24 (by norm_num [speechseg_delta])
      (by norm_num [speechseg_delta]) (by norm_num)⟩

/-- C6: re-quantization through the spec's `toFrame`/`toSeconds` is
idempotent for positive rates. -/
theorem toFrame_toSeconds_idempotent (r s : ℚ) (hr : 0 < r) (hs : 0 ≤ s) :
    toFrame (toSeconds (toFrame s r) r) r = toFrame s r := by
  rw [toSeconds, toFrame, toFrame, div_mul_cancel₀ _ (ne_of_gt hr),
    Int.floor_intCast]

/-- Witness for C6 at `r = 24`, `s = 1/2`. -/
theorem toFrame_toSeconds_idempotent_witness :
    (0 : ℚ) < 24 ∧ (0 : ℚ) ≤ 1 / 2 ∧
    toFrame (toSeconds (toFrame (1 / 2) 24) 24) 24 = toFrame (1 / 2) 24 :=
  ⟨by norm_num, by norm_num,
    toFrame_toSeconds_idempotent 24 (1 / 2) (by norm_num) (by norm_num)⟩

/-- Banker's rounding at 3 decimals is the identity on integers. -/
theorem pyRound3_intCast (n : ℤ) : pyRound3 ((n : ℚ)) = (n : ℚ) := by
  have h : ((n : ℚ)) * 1000 = ((n * 1000 : ℤ) : ℚ) := by push_cast; ring
  rw [pyRound3, h, pyRoundInt, Int.fract_intCast]
  rw [if_pos (by norm_num : (0 : ℚ) < 1 / 2), Int.floor_intCast]
  push_cast
  field_simp

/-- C7 fails on the code: at NTSC settings `fps = 30`,
`fps_base = 1.001`, `find_scenes` uses `round(30 / 1.001, 3) = 29.97`
while the profanity-mute and speech-segmentation operators use the raw
`fps = 30`. -/
theorem operation_fps_cex :
    find_scenes_fps 30 (1001 / 1000) = 2997 / 100 ∧
    mute_profanity_fps 30 (1001 / 1000) = 30 ∧
    speech_segmentation_fps 30 (1001 / 1000) = 30 ∧
    mute_profanity_fps 30 (1001 / 1000) ≠ find_scenes_fps 30 (1001 / 1000) := by
  have h30 : (30 : ℚ) / (1001 / 1000) * 1000 = 30000000 / 1001 := by norm_num
  have hf : ⌊(30000000 : ℚ) / 1001⌋ = 29970 := by norm_num [Int.floor_eq_iff]
  have hfr : Int.fract ((30000000 : ℚ) / 1001) < 1 / 2 := by
    rw [Int.fract, hf]
    norm_num
  have hval : find_scenes_fps 30 (1001 / 1000) = 2997 / 100 := by
    rw [find_scenes_fps, pyRound3, h30, pyRoundInt, if_pos hfr, hf]
    norm_num
  refine ⟨hval, rfl, rfl, ?_⟩
  rw [hval, mute_profanity_fps]
  norm_num

/-- C7 amended: within `find_scenes` the detector seek and end-time
calls both use the single value `round(fps / fps_base, 3)`; the
profanity-mute and speech-segmentation operators instead use the raw
`render.fps` (no `fps_base` division, no rounding), each consistently
within its own operation; the per-operation values agree whenever the
raw fps is an integer and `fps_base = 1`. -/
theorem operation_fps_values (fps fps_base start e : ℚ) :
    find_scenes_calls fps fps_base start e =
      (pyRound3 (fps / fps_base), start / pyRound3 (fps / fps_base),
        e / pyRound3 (fps / fps_base)) ∧
    mute_profanity_fps fps fps_base = fps ∧
    speech_segmentation_fps fps fps_base = fps ∧
    (∀ n : ℤ, fps = (n : ℚ) → fps_base = 1 →
      find_scenes_fps fps fps_base = mute_profanity_fps fps fps_base) := by
  refine ⟨rfl, rfl, rfl, ?_⟩
  intro n hn hb
  rw [hn, hb, find_scenes_fps, mute_profanity_fps, div_one, pyRound3_intCast]

/-! ## Host strip model and `SEQUENCER_OT_split_selected.execute`
(source lines 86-132)

A `Strip` carries the attributes the operator reads and writes; the
host collection `sequences_all` becomes a list of strips plus a
fresh-identity counter for strips created by splits.  The host split
primitive itself is out of scope in the spec (§1) and is modelled from
the spec (§4.5 and the glossary entry "Split"). -/

/-- A timeline strip: identity plus the attributes the operator uses. -/
structure Strip where
  id : ℕ
  frame_final_start : ℤ
  frame_final_end : ℤ
  select : Bool
  mute : Bool
  lock : Bool
deriving DecidableEq

/-- The host strip collection and a counter supplying identities for
strips created by splits. -/
structure SeqState where
  strips : List Strip
  nextId : ℕ
deriving DecidableEq

/-- Identities of all strips. -/
def stripIds (st : SeqState) : List ℕ := st.strips.map (fun s => s.id)

/-- `context.selected_sequences` as identities (source line 97). -/
def selectedIds (st : SeqState) : List ℕ :=
  (st.strips.filter (fun s => s.select)).map (fun s => s.id)

/-- `bpy.ops.sequencer.select_all(action="DESELECT")`. -/
def deselectAll (st : SeqState) : SeqState :=
  { st with strips := st.strips.map (fun s => { s with select := false }) }

/-- Assignment `s.select = b` for the strip with identity `i`. -/
def setSelect (i : ℕ) (b : Bool) (st : SeqState) : SeqState :=
  { st with
    strips := st.strips.map (fun s => if s.id = i then { s with select := b } else s) }

/-- Whether the host split divides strip `s` at frame `cf`: it must be
selected, unlocked, and strictly contain `cf`. -/
def splitsAt (cf : ℤ) (s : Strip) : Bool :=
  s.select && !s.lock && decide (s.frame_final_start < cf) &&
    decide (cf < s.frame_final_end)

/-- Modelled from the spec: the traversal of the host split primitive
(§4.5 "perform one split at `cf` producing two strips", glossary
"Split"), with side RIGHT: each strip the split divides is replaced by
its left part (original identity, deselected) and a new right part
(fresh identity, selected); other strips are unchanged. -/
def splitRightGo (cf : ℤ) : List Strip → ℕ → List Strip × ℕ
  | [], n => ([], n)
  | s :: rest, n =>
    if splitsAt cf s then
      let r := splitRightGo cf rest (n + 1)
      (⟨s.id, s.frame_final_start, cf, false, s.mute, s.lock⟩ ::
        ⟨n, cf, s.frame_final_end, true, s.mute, s.lock⟩ :: r.1, r.2)
    else
      let r := splitRightGo cf rest n
      (s :: r.1, r.2)

/-- Modelled from the spec: `bpy.ops.sequencer.split(frame=cf,
side="RIGHT")` on the whole state. -/
def splitRight (cf : ℤ) (st : SeqState) : SeqState :=
  ⟨(splitRightGo cf st.strips st.nextId).1, (splitRightGo cf st.strips st.nextId).2⟩

/-- The Blender status set an operator returns. -/
inductive OpStatus where
  | FINISHED
  | CANCELLED
deriving DecidableEq

/-- The strips scanned into `at_cursor` (source line 110): unlocked and
`frame_final_start <= cf < frame_final_end`. -/
def atCursorPred (cf : ℤ) (s : Strip) : Bool :=
  decide (s.frame_final_start ≤ cf) && decide (cf < s.frame_final_end) && !s.lock

/-- Lines 116-122 of the loop body: deselect all, select only the strip
with identity `sid`, split at `cf` side RIGHT. -/
def bodyS3 (cf : ℤ) (stA : SeqState) (sid : ℕ) : SeqState :=
  splitRight cf (setSelect sid true (deselectAll stA))

/-- Lines 125-127: the running `selection` extended with every strip
selected after the split. -/
def bodySel2 (cf : ℤ) (stA : SeqState) (sel : List ℕ) (sid : ℕ) : List ℕ :=
  sel ++ ((bodyS3 cf stA sid).strips.filter (fun t => t.select)).map (fun t => t.id)

/-- Lines 128-130: deselect all, then re-select every strip whose
identity the running `selection` holds. -/
def bodyFinal (cf : ℤ) (stA : SeqState) (sel : List ℕ) (sid : ℕ) : SeqState :=
  { strips := (deselectAll (bodyS3 cf stA sid)).strips.map (fun t =>
      if t.id ∈ bodySel2 cf stA sel sid then { t with select := true } else t),
    nextId := (deselectAll (bodyS3 cf stA sid)).nextId }

/-- One iteration of the operator's `for s in at_cursor` loop (source
lines 114-130): on `cut_selected and s.select`, deselect all, select
only `s`, split at `cf` side RIGHT, append every now-selected strip to
the running `selection`, deselect all and re-select `selection`. -/
def splitSelectedStep (cf : ℤ) (cut_selected : Bool)
    (acc : SeqState × List ℕ) (sid : ℕ) : SeqState × List ℕ :=
  match acc.1.strips.find? (fun s => s.id == sid) with
  | none => acc
  | some s =>
    if cut_selected && s.select then
      (bodyFinal cf acc.1 acc.2 sid, bodySel2 cf acc.1 acc.2 sid)
    else acc

/-- `SEQUENCER_OT_split_selected.execute` (source lines 96-132):
snapshot the selection, scan `at_cursor` and `cut_selected`, run the
loop, return `FINISHED`. -/
def split_selected_execute (cf : ℤ) (st : SeqState) : SeqState × OpStatus :=
  let at_cursor := (st.strips.filter (atCursorPred cf)).map (fun s => s.id)
  let cut_selected := (st.strips.filter (atCursorPred cf)).any (fun s => s.select)
  ((at_cursor.foldl (splitSelectedStep cf cut_selected) (st, selectedIds st)).1,
    OpStatus.FINISHED)

example :
    split_selected_execute 5
        ⟨[⟨0, 0, 10, false, false, false⟩], 1⟩ =
      (⟨[⟨0, 0, 10, false, false, false⟩], 1⟩, OpStatus.FINISHED) := by decide

example :
    (split_selected_execute 5
        ⟨[⟨0, 0, 10, true, false, false⟩], 1⟩).1.strips =
      [⟨0, 0, 5, true, false, false⟩, ⟨1, 5, 10, true, false, false⟩] := by decide

/-- With `cut_selected = false` every loop iteration leaves the
accumulator untouched. -/
theorem splitSelectedStep_false (cf : ℤ) (acc : SeqState × List ℕ) (sid : ℕ) :
    splitSelectedStep cf false acc sid = acc := by
  cases hf : acc.1.strips.find? (fun s => s.id == sid) with
  | none => simp [splitSelectedStep, hf]
  | some s => simp [splitSelectedStep, hf]

/-- Folding the `cut_selected = false` step is the identity. -/
theorem foldl_splitSelectedStep_false (cf : ℤ) :
    ∀ (l : List ℕ) (acc : SeqState × List ℕ),
      l.foldl (splitSelectedStep cf false) acc = acc := by
  intro l
  induction l with
  | nil => intro acc; rfl
  | cons x xs ihx =>
    intro acc
    rw [List.foldl_cons, splitSelectedStep_false, ihx]

/-- C3: if no unlocked strip whose half-open range
`[frame_final_start, frame_final_end)` contains the cursor frame is
selected, `split_selected` leaves the state untouched (strip count,
boundaries, select/mute/lock flags) and still reports FINISHED. -/
theorem split_selected_noop (cf : ℤ) (st : SeqState)
    (h : ∀ s ∈ st.strips, s.frame_final_start ≤ cf → cf < s.frame_final_end →
      s.lock = false → s.select = false) :
    split_selected_execute cf st = (st, OpStatus.FINISHED) := by
  have hcut : (st.strips.filter (atCursorPred cf)).any (fun s => s.select) = false := by
    rw [List.any_eq_false]
    intro s hs
    have hmem := List.mem_filter.mp hs
    have hpred := hmem.2
    simp only [atCursorPred, Bool.and_eq_true, Bool.not_eq_true', decide_eq_true_eq] at hpred
    rw [h s hmem.1 hpred.1.1 hpred.1.2 hpred.2]
    simp
  simp only [split_selected_execute, hcut, foldl_splitSelectedStep_false]

/-- Witness for C3: one unselected strip under the cursor. -/
theorem split_selected_noop_witness :
    (∀ s ∈ (⟨[⟨0, 0, 10, false, false, false⟩], 1⟩ : SeqState).strips,
        s.frame_final_start ≤ 5 → 5 < s.frame_final_end →
        s.lock = false → s.select = false) ∧
    split_selected_execute 5 ⟨[⟨0, 0, 10, false, false, false⟩], 1⟩ =
      (⟨[⟨0, 0, 10, false, false, false⟩], 1⟩, OpStatus.FINISHED) :=
  ⟨by decide, split_selected_noop 5 _ (by decide)⟩

/-- Invariants of the split traversal: the counter only grows, every
output identity stays below the final counter, output identities are
distinct, and every output strip either shares its identity with an
input strip (and is only selected if that strip was) or is a fresh,
selected right part. -/
theorem splitRightGo_spec (cf : ℤ) (l : List Strip) :
    ∀ n : ℕ, (∀ s ∈ l, s.id < n) → ((l.map (fun s => s.id)).Nodup) →
      (n ≤ (splitRightGo cf l n).2 ∧
        (∀ s ∈ (splitRightGo cf l n).1, s.id < (splitRightGo cf l n).2) ∧
        (((splitRightGo cf l n).1.map (fun s => s.id)).Nodup) ∧
        (∀ s ∈ (splitRightGo cf l n).1,
          (∃ t ∈ l, t.id = s.id ∧ (s.select = true → t.select = true)) ∨
            (n ≤ s.id ∧ s.select = true))) := by
  induction l with
  | nil =>
    intro n h1 h2
    simp [splitRightGo]
  | cons s rest ihs =>
    intro n h1 h2
    rw [List.map_cons] at h2
    obtain ⟨hnm, hnd⟩ := List.nodup_cons.mp h2
    have hsn : s.id < n := h1 s (List.mem_cons_self s rest)
    by_cases hc : splitsAt cf s = true
    · have hrec := ihs (n + 1)
        (fun t ht => Nat.lt_succ_of_lt (h1 t (List.mem_cons_of_mem s ht))) hnd
      obtain ⟨ha, hb, hnda, hd⟩ := hrec
      have hsel : s.select = true := by
        simp only [splitsAt, Bool.and_eq_true] at hc
        exact hc.1.1.1
      have hgo : splitRightGo cf (s :: rest) n =
          (⟨s.id, s.frame_final_start, cf, false, s.mute, s.lock⟩ ::
            ⟨n, cf, s.frame_final_end, true, s.mute, s.lock⟩ ::
              (splitRightGo cf rest (n + 1)).1,
            (splitRightGo cf rest (n + 1)).2) := by
        simp [splitRightGo, hc]
      rw [hgo]
      refine ⟨by omega, ?_, ?_, ?_⟩
      · intro t ht
        rcases List.mem_cons.mp ht with rfl | ht2
        · simpa using lt_of_lt_of_le (Nat.lt_succ_of_lt hsn) ha
        rcases List.mem_cons.mp ht2 with rfl | ht3
        · simpa using lt_of_lt_of_le (Nat.lt_succ_self n) ha
        · exact hb t ht3
      · rw [List.map_cons, List.map_cons]
        refine List.nodup_cons.mpr ⟨?_, List.nodup_cons.mpr ⟨?_, hnda⟩⟩
        · intro hmem
          rcases List.mem_cons.mp hmem with he | hmem2
          · have he2 : s.id = n := he
            omega
          · obtain ⟨t, ht, hte⟩ := List.mem_map.mp hmem2
            rcases hd t ht with ⟨u, hu, hue, _⟩ | ⟨hge, _⟩
            · refine hnm (List.mem_map.mpr ⟨u, hu, ?_⟩)
              show u.id = s.id
              rw [hue]
              exact hte
            · have hte2 : t.id = s.id := hte
              omega
        · intro hmem2
          obtain ⟨t, ht, hte⟩ := List.mem_map.mp hmem2
          have hte2 : t.id = n := hte
          rcases hd t ht with ⟨u, hu, hue, _⟩ | ⟨hge, _⟩
          · have := h1 u (List.mem_cons_of_mem s hu)
            omega
          · omega
      · intro t ht
        rcases List.mem_cons.mp ht with rfl | ht2
        · refine Or.inl ⟨s, List.mem_cons_self s rest, rfl, ?_⟩
          intro hfalse
          simp at hfalse
        rcases List.mem_cons.mp ht2 with rfl | ht3
        · exact Or.inr ⟨le_refl _, rfl⟩
        · rcases hd t ht3 with ⟨u, hu, hue, husel⟩ | ⟨hge, hsel2⟩
          · exact Or.inl ⟨u, List.mem_cons_of_mem s hu, hue, husel⟩
          · exact Or.inr ⟨by omega, hsel2⟩
    · have hrec := ihs n (fun t ht => h1 t (List.mem_cons_of_mem s ht)) hnd
      obtain ⟨ha, hb, hnda, hd⟩ := hrec
      have hgo : splitRightGo cf (s :: rest) n =
          (s :: (splitRightGo cf rest n).1, (splitRightGo cf rest n).2) := by
        simp [splitRightGo, hc]
      rw [hgo]
      refine ⟨ha, ?_, ?_, ?_⟩
      · intro t ht
        rcases List.mem_cons.mp ht with rfl | ht2
        · exact lt_of_lt_of_le hsn ha
        · exact hb t ht2
      · rw [List.map_cons]
        refine List.nodup_cons.mpr ⟨?_, hnda⟩
        intro hmem
        obtain ⟨t, ht, hte⟩ := List.mem_map.mp hmem
        rcases hd t ht with ⟨u, hu, hue, _⟩ | ⟨hge, _⟩
        · exact hnm (List.mem_map.mpr ⟨u, hu, by rw [hue, hte]⟩)
        · omega
      · intro t ht
        rcases List.mem_cons.mp ht with rfl | ht2
        · exact Or.inl ⟨t, List.mem_cons_self t rest, rfl, fun h => h⟩
        · rcases hd t ht2 with ⟨u, hu, hue, husel⟩ | ⟨hge, hsel2⟩
          · exact Or.inl ⟨u, List.mem_cons_of_mem s hu, hue, husel⟩
          · exact Or.inr ⟨hge, hsel2⟩

/-- The per-strip loop invariant tying the mutable state to the running
`selection` accumulator: identities are distinct and below the
fresh-identity counter, the counter never shrinks, a strip is selected
exactly when its identity is in the accumulator, accumulator entries
are original selected identities or fresh ones, the original selection
stays in the accumulator, and every fresh identity present in the
collection is in the accumulator. -/
def SelInv (st0 : SeqState) (acc : SeqState × List ℕ) : Prop :=
  (stripIds acc.1).Nodup ∧
  (∀ s ∈ acc.1.strips, s.id < acc.1.nextId) ∧
  st0.nextId ≤ acc.1.nextId ∧
  (∀ s ∈ acc.1.strips, (s.select = true ↔ s.id ∈ acc.2)) ∧
  (∀ n ∈ acc.2, n ∈ selectedIds st0 ∨ st0.nextId ≤ n) ∧
  (∀ n ∈ selectedIds st0, n ∈ acc.2) ∧
  (∀ s ∈ acc.1.strips, st0.nextId ≤ s.id → s.id ∈ acc.2)

/-- Identities survive `select_all(DESELECT)` followed by selecting one
strip. -/
theorem stripIds_setSelect_deselectAll (stA : SeqState) (sid : ℕ) :
    stripIds (setSelect sid true (deselectAll stA)) = stripIds stA := by
  simp only [stripIds, setSelect, deselectAll, List.map_map]
  refine List.map_congr_left ?_
  intro w hw
  by_cases hid : w.id = sid
  · simp only [Function.comp_apply]
    rw [if_pos hid]
  · simp only [Function.comp_apply]
    rw [if_neg hid]

/-- Every strip after deselect-all plus select-one descends from an
original strip of the same identity, and is selected only if it is the
chosen one. -/
theorem setSelect_deselectAll_mem (stA : SeqState) (sid : ℕ) (u : Strip)
    (hu : u ∈ (setSelect sid true (deselectAll stA)).strips) :
    ∃ w ∈ stA.strips, w.id = u.id ∧ (u.select = true → u.id = sid) := by
  simp only [setSelect, deselectAll] at hu
  obtain ⟨v, hv, hvu⟩ := List.mem_map.mp hu
  obtain ⟨w, hw, hwv⟩ := List.mem_map.mp hv
  subst hwv
  subst hvu
  refine ⟨w, hw, ?_⟩
  by_cases hid : w.id = sid
  · rw [if_pos hid]
    exact ⟨rfl, fun _ => hid⟩
  · rw [if_neg hid]
    refine ⟨rfl, fun hh => ?_⟩
    exact absurd hh (by simp)

/-- Identities survive deselect-all plus re-selecting a list of
identities. -/
theorem stripIds_mark (st3 : SeqState) (sel2 : List ℕ) :
    (((deselectAll st3).strips.map (fun t =>
        if t.id ∈ sel2 then { t with select := true } else t)).map (fun s => s.id)) =
      stripIds st3 := by
  simp only [stripIds, deselectAll, List.map_map]
  refine List.map_congr_left ?_
  intro w hw
  by_cases hid : w.id ∈ sel2
  · simp only [Function.comp_apply]
    rw [if_pos hid]
  · simp only [Function.comp_apply]
    rw [if_neg hid]

/-- After deselect-all plus re-selecting the identities in `sel2`,
every strip descends from a strip of the same identity and is selected
exactly when its identity is in `sel2`. -/
theorem mark_mem (st3 : SeqState) (sel2 : List ℕ) (u : Strip)
    (hu : u ∈ (deselectAll st3).strips.map (fun t =>
        if t.id ∈ sel2 then { t with select := true } else t)) :
    ∃ t ∈ st3.strips, t.id = u.id ∧ (u.select = true ↔ u.id ∈ sel2) := by
  simp only [deselectAll] at hu
  obtain ⟨v, hv, hvu⟩ := List.mem_map.mp hu
  obtain ⟨t, ht, htv⟩ := List.mem_map.mp hv
  subst htv
  subst hvu
  refine ⟨t, ht, ?_⟩
  by_cases hid : t.id ∈ sel2
  · rw [if_pos hid]
    exact ⟨rfl, by simpa using hid⟩
  · rw [if_neg hid]
    refine ⟨rfl, ?_⟩
    constructor
    · intro hh
      exact absurd hh (by simp)
    · intro hh
      exact absurd hh hid

/-- The loop body preserves the selection invariant, provided the strip
it splits was already recorded in the accumulator. -/
theorem splitSelectedBody_inv (cf : ℤ) (st0 stA : SeqState) (sel : List ℕ)
    (sid : ℕ) (hsid : sid ∈ sel) (hinv : SelInv st0 (stA, sel)) :
    SelInv st0 (bodyFinal cf stA sel sid, bodySel2 cf stA sel sid) := by
  obtain ⟨h1, h2, h3, h4, h5, h6, h7⟩ := hinv
  have h2' : ∀ s ∈ stA.strips, s.id < stA.nextId := h2
  have h3' : st0.nextId ≤ stA.nextId := h3
  have hn2 : (setSelect sid true (deselectAll stA)).nextId = stA.nextId := rfl
  have hids2 : ∀ u ∈ (setSelect sid true (deselectAll stA)).strips,
      u.id < (setSelect sid true (deselectAll stA)).nextId := by
    intro u hu
    obtain ⟨w, hw, hwid, _⟩ := setSelect_deselectAll_mem stA sid u hu
    have hlt := h2' w hw
    omega
  have hnd2 : ((setSelect sid true (deselectAll stA)).strips.map
      (fun s => s.id)).Nodup := by
    have he := stripIds_setSelect_deselectAll stA sid
    rw [stripIds, stripIds] at he
    rw [he]
    exact h1
  obtain ⟨hga, hgb, hgc, hgd⟩ :=
    splitRightGo_spec cf (setSelect sid true (deselectAll stA)).strips
      (setSelect sid true (deselectAll stA)).nextId hids2 hnd2
  have hs3strips : (bodyS3 cf stA sid).strips =
      (splitRightGo cf (setSelect sid true (deselectAll stA)).strips
        (setSelect sid true (deselectAll stA)).nextId).1 := rfl
  have hs3next : (bodyS3 cf stA sid).nextId =
      (splitRightGo cf (setSelect sid true (deselectAll stA)).strips
        (setSelect sid true (deselectAll stA)).nextId).2 := rfl
  -- classification of accumulator entries added by the body
  have hnewly : ∀ n ∈ ((bodyS3 cf stA sid).strips.filter
      (fun t => t.select)).map (fun t => t.id),
      n = sid ∨ st0.nextId ≤ n := by
    intro n hn
    obtain ⟨t, ht, htn⟩ := List.mem_map.mp hn
    obtain ⟨ht3, htsel⟩ := List.mem_filter.mp ht
    rw [hs3strips] at ht3
    rcases hgd t ht3 with ⟨w2, hw2, hw2id, hw2sel⟩ | ⟨hge, _⟩
    · obtain ⟨w0, hw0, hw0id, hw0sid⟩ := setSelect_deselectAll_mem stA sid w2 hw2
      have := hw0sid
      have hw2sel2 := hw2sel (by simpa using htsel)
      have hwsid : w2.id = sid := by
        obtain ⟨w0', hw0', hw0id', hsel'⟩ := setSelect_deselectAll_mem stA sid w2 hw2
        exact hsel' hw2sel2
      left
      omega
    · right
      rw [hn2] at hge
      omega
  have hsel2cases : ∀ n ∈ bodySel2 cf stA sel sid, n ∈ sel ∨ st0.nextId ≤ n := by
    intro n hn
    rcases List.mem_append.mp hn with hn1 | hn2b
    · exact Or.inl hn1
    · rcases hnewly n hn2b with rfl | hge
      · exact Or.inl hsid
      · exact Or.inr hge
  refine ⟨?_, ?_, ?_, ?_, ?_, ?_, ?_⟩
  · -- distinct identities
    have he := stripIds_mark (bodyS3 cf stA sid) (bodySel2 cf stA sel sid)
    show ((bodyFinal cf stA sel sid).strips.map (fun s => s.id)).Nodup
    rw [bodyFinal]
    rw [he, stripIds, hs3strips]
    exact hgc
  · -- identities below the counter
    intro u hu
    rw [bodyFinal] at hu
    obtain ⟨t, ht, htid, _⟩ := mark_mem (bodyS3 cf stA sid) (bodySel2 cf stA sel sid) u hu
    rw [hs3strips] at ht
    have := hgb t ht
    show u.id < (deselectAll (bodyS3 cf stA sid)).nextId
    have hnx : (deselectAll (bodyS3 cf stA sid)).nextId =
        (splitRightGo cf (setSelect sid true (deselectAll stA)).strips
          (setSelect sid true (deselectAll stA)).nextId).2 := rfl
    omega
  · -- the counter never shrinks
    show st0.nextId ≤ (deselectAll (bodyS3 cf stA sid)).nextId
    have hnx : (deselectAll (bodyS3 cf stA sid)).nextId =
        (splitRightGo cf (setSelect sid true (deselectAll stA)).strips
          (setSelect sid true (deselectAll stA)).nextId).2 := rfl
    omega
  · -- selected exactly when recorded
    intro u hu
    rw [bodyFinal] at hu
    obtain ⟨t, ht, htid, hiff⟩ := mark_mem (bodyS3 cf stA sid) (bodySel2 cf stA sel sid) u hu
    exact hiff
  · -- accumulator entries are original selections or fresh
    intro n hn
    rcases hsel2cases n hn with hmem | hge
    · exact h5 n hmem
    · exact Or.inr hge
  · -- the original selection stays recorded
    intro n hn
    exact List.mem_append_left _ (h6 n hn)
  · -- fresh identities present are recorded
    intro u hu
    rw [bodyFinal] at hu
    obtain ⟨t, ht, htid, _⟩ := mark_mem (bodyS3 cf stA sid) (bodySel2 cf stA sel sid) u hu
    intro hge
    rw [hs3strips] at ht
    rcases hgd t ht with ⟨w2, hw2, hw2id, _⟩ | ⟨_, htsel⟩
    · obtain ⟨w0, hw0, hw0id, _⟩ := setSelect_deselectAll_mem stA sid w2 hw2
      have hmem := h7 w0 hw0 (by omega)
      have : w0.id = u.id := by omega
      rw [← this]
      exact List.mem_append_left _ hmem
    · refine List.mem_append_right _ ?_
      refine List.mem_map.mpr ⟨t, ?_, htid⟩
      refine List.mem_filter.mpr ⟨?_, by simpa using htsel⟩
      rw [hs3strips]
      exact ht

/-- Each loop iteration preserves the selection invariant. -/
theorem splitSelectedStep_inv (cf : ℤ) (b : Bool) (st0 : SeqState)
    (acc : SeqState × List ℕ) (sid : ℕ) (hinv : SelInv st0 acc) :
    SelInv st0 (splitSelectedStep cf b acc sid) := by
  obtain ⟨stA, sel⟩ := acc
  cases hf : stA.strips.find? (fun s => s.id == sid) with
  | none =>
    simpa [splitSelectedStep, hf] using hinv
  | some s =>
    by_cases hcond : (b && s.select) = true
    · have hsmem : s ∈ stA.strips := List.mem_of_find?_eq_some hf
      have hsid : s.id = sid := by
        have := List.find?_some hf
        simpa using this
      have hssel : s.select = true := by
        simp only [Bool.and_eq_true] at hcond
        exact hcond.2
      have hsidmem : sid ∈ sel := by
        have h4 := hinv.2.2.2.1
        rw [← hsid]
        exact (h4 s hsmem).mp hssel
      simp only [splitSelectedStep, hf, if_pos hcond]
      exact splitSelectedBody_inv cf st0 stA sel sid hsidmem hinv
    · simpa [splitSelectedStep, hf, hcond] using hinv

/-- The whole loop preserves the selection invariant. -/
theorem foldl_splitSelectedStep_inv (cf : ℤ) (b : Bool) (st0 : SeqState) :
    ∀ (l : List ℕ) (acc : SeqState × List ℕ), SelInv st0 acc →
      SelInv st0 (l.foldl (splitSelectedStep cf b) acc) := by
  intro l
  induction l with
  | nil => intro acc h; exact h
  | cons x xs ihx =>
    intro acc h
    exact ihx _ (splitSelectedStep_inv cf b st0 acc x h)

/-- The invariant holds at entry, with the accumulator holding the
snapshot of the selection. -/
theorem SelInv_init (st : SeqState) (hnodup : (stripIds st).Nodup)
    (hlt : ∀ s ∈ st.strips, s.id < st.nextId) :
    SelInv st (st, selectedIds st) := by
  refine ⟨hnodup, hlt, le_refl _, ?_, ?_, ?_, ?_⟩
  · intro s hs
    constructor
    · intro hsel
      exact List.mem_map.mpr ⟨s, List.mem_filter.mpr ⟨hs, hsel⟩, rfl⟩
    · intro hmem
      obtain ⟨t, ht, hts⟩ := List.mem_map.mp hmem
      obtain ⟨ht2, htsel⟩ := List.mem_filter.mp ht
      have hteq : t = s := List.inj_on_of_nodup_map hnodup ht2 hs hts
      rw [← hteq]
      exact htsel
  · intro n hn
    exact Or.inl hn
  · intro n hn
    exact hn
  · intro s hs hge
    have := hlt s hs
    omega

/-- C4: after `split_selected`, the selected strips are exactly the
surviving strips of the pre-operation selection together with the new
strips the splits produced (all of which are selected): there is a list
of fresh identities such that a strip ends selected iff its identity
was selected before or is one of them, and every strip carrying a fresh
identity ends selected. -/
theorem split_selected_selection (cf : ℤ) (st : SeqState)
    (hnodup : (stripIds st).Nodup)
    (hlt : ∀ s ∈ st.strips, s.id < st.nextId) :
    ∃ newIds : List ℕ,
      (∀ n ∈ newIds, st.nextId ≤ n) ∧
      (∀ s ∈ (split_selected_execute cf st).1.strips,
        (s.select = true ↔ (s.id ∈ selectedIds st ∨ s.id ∈ newIds))) ∧
      (∀ s ∈ (split_selected_execute cf st).1.strips,
        st.nextId ≤ s.id → s.select = true) := by
  have hinv := foldl_splitSelectedStep_inv cf
    ((st.strips.filter (atCursorPred cf)).any (fun s => s.select)) st
    ((st.strips.filter (atCursorPred cf)).map (fun s => s.id))
    (st, selectedIds st) (SelInv_init st hnodup hlt)
  obtain ⟨h1, h2, h3, h4, h5, h6, h7⟩ := hinv
  refine ⟨(((st.strips.filter (atCursorPred cf)).map (fun s => s.id)).foldl
      (splitSelectedStep cf ((st.strips.filter (atCursorPred cf)).any
        (fun s => s.select))) (st, selectedIds st)).2.filter
      (fun n => decide (st.nextId ≤ n)), ?_, ?_, ?_⟩
  · intro n hn
    have := (List.mem_filter.mp hn).2
    simpa using this
  · intro s hs
    have hiff := h4 s hs
    constructor
    · intro hsel
      have hmem := hiff.mp hsel
      rcases h5 s.id hmem with hl | hge
      · exact Or.inl hl
      · exact Or.inr (List.mem_filter.mpr ⟨hmem, by simpa using hge⟩)
    · rintro (hl | hr)
      · exact hiff.mpr (h6 s.id hl)
      · exact hiff.mpr (List.mem_filter.mp hr).1
  · intro s hs hge
    exact (h4 s hs).mpr (h7 s hs hge)

/-- Witness for C4: one selected strip under the cursor gets split; the
right part is new and both parts end selected. -/
theorem split_selected_selection_witness :
    (stripIds ⟨[⟨0, 0, 10, true, false, false⟩], 1⟩).Nodup ∧
    (∀ s ∈ (⟨[⟨0, 0, 10, true, false, false⟩], 1⟩ : SeqState).strips, s.id < 1) ∧
    (∃ newIds : List ℕ,
      (∀ n ∈ newIds, 1 ≤ n) ∧
      (∀ s ∈ (split_selected_execute 5 ⟨[⟨0, 0, 10, true, false, false⟩], 1⟩).1.strips,
        (s.select = true ↔
          (s.id ∈ selectedIds ⟨[⟨0, 0, 10, true, false, false⟩], 1⟩ ∨ s.id ∈ newIds))) ∧
      (∀ s ∈ (split_selected_execute 5 ⟨[⟨0, 0, 10, true, false, false⟩], 1⟩).1.strips,
        1 ≤ s.id → s.select = true)) :=
  ⟨by decide, by decide,
    split_selected_selection 5 ⟨[⟨0, 0, 10, true, false, false⟩], 1⟩
      (by decide) (by decide)⟩

/-! ## `create_temp_sound_mixdown` (source lines 310-352)

The scene is its frame range plus the strip collection; Python's
`min`/`max` over a nonempty sequence are folds; the sound mixdown
itself only writes a file and leaves the timeline untouched. -/

/-- Python `min` over a list of integers (`none` on the empty list,
where Python raises `ValueError`). -/
def pyMin : List ℤ → Option ℤ
  | [] => none
  | x :: xs => some (xs.foldl min x)

/-- Python `max` over a list of integers (`none` on the empty list). -/
def pyMax : List ℤ → Option ℤ
  | [] => none
  | x :: xs => some (xs.foldl max x)

theorem foldl_min_le_init (xs : List ℤ) : ∀ x : ℤ, xs.foldl min x ≤ x := by
  induction xs with
  | nil => intro x; exact le_refl x
  | cons y ys ihy =>
    intro x
    calc (y :: ys).foldl min x = ys.foldl min (min x y) := rfl
    _ ≤ min x y := ihy (min x y)
    _ ≤ x := min_le_left x y

theorem foldl_min_le_mem (xs : List ℤ) :
    ∀ (x b : ℤ), b ∈ xs → xs.foldl min x ≤ b := by
  induction xs with
  | nil => intro x b hb; exact absurd hb (List.not_mem_nil b)
  | cons y ys ihy =>
    intro x b hb
    rcases List.mem_cons.mp hb with rfl | hb2
    · calc (b :: ys).foldl min x = ys.foldl min (min x b) := rfl
      _ ≤ min x b := foldl_min_le_init ys (min x b)
      _ ≤ b := min_le_right x b
    · exact ihy (min x y) b hb2

theorem foldl_min_mem (xs : List ℤ) :
    ∀ x : ℤ, xs.foldl min x = x ∨ xs.foldl min x ∈ xs := by
  induction xs with
  | nil => intro x; exact Or.inl rfl
  | cons y ys ihy =>
    intro x
    rcases ihy (min x y) with h | h
    · rcases min_choice x y with hm | hm
      · exact Or.inl (by rw [List.foldl_cons, h, hm])
      · refine Or.inr ?_
        rw [List.foldl_cons, h, hm]
        exact List.mem_cons_self y ys
    · exact Or.inr (List.mem_cons_of_mem y h)

theorem foldl_max_init_le (xs : List ℤ) : ∀ x : ℤ, x ≤ xs.foldl max x := by
  induction xs with
  | nil => intro x; exact le_refl x
  | cons y ys ihy =>
    intro x
    calc x ≤ max x y := le_max_left x y
    _ ≤ ys.foldl max (max x y) := ihy (max x y)
    _ = (y :: ys).foldl max x := rfl

theorem foldl_max_mem_le (xs : List ℤ) :
    ∀ (x b : ℤ), b ∈ xs → b ≤ xs.foldl max x := by
  induction xs with
  | nil => intro x b hb; exact absurd hb (List.not_mem_nil b)
  | cons y ys ihy =>
    intro x b hb
    rcases List.mem_cons.mp hb with rfl | hb2
    · calc b ≤ max x b := le_max_right x b
      _ ≤ ys.foldl max (max x b) := foldl_max_init_le ys (max x b)
      _ = (b :: ys).foldl max x := rfl
    · exact ihy (max x y) b hb2

theorem foldl_max_mem (xs : List ℤ) :
    ∀ x : ℤ, xs.foldl max x = x ∨ xs.foldl max x ∈ xs := by
  induction xs with
  | nil => intro x; exact Or.inl rfl
  | cons y ys ihy =>
    intro x
    rcases ihy (max x y) with h | h
    · rcases max_choice x y with hm | hm
      · exact Or.inl (by rw [List.foldl_cons, h, hm])
      · refine Or.inr ?_
        rw [List.foldl_cons, h, hm]
        exact List.mem_cons_self y ys
    · exact Or.inr (List.mem_cons_of_mem y h)

/-- `pyMin` bounds every member and is attained. -/
theorem pyMin_spec (l : List ℤ) (a : ℤ) (h : pyMin l = some a) :
    a ∈ l ∧ ∀ b ∈ l, a ≤ b := by
  cases l with
  | nil => exact absurd h (by simp [pyMin])
  | cons x xs =>
    have ha : xs.foldl min x = a := by
      have := h
      simp only [pyMin, Option.some.injEq] at this
      exact this
    constructor
    · rcases foldl_min_mem xs x with he | he
      · rw [← ha, he]
        exact List.mem_cons_self x xs
      · rw [← ha]
        exact List.mem_cons_of_mem x he
    · intro b hb
      rcases List.mem_cons.mp hb with rfl | hb2
      · rw [← ha]
        exact foldl_min_le_init xs b
      · rw [← ha]
        exact foldl_min_le_mem xs x b hb2

/-- `pyMax` bounds every member and is attained. -/
theorem pyMax_spec (l : List ℤ) (a : ℤ) (h : pyMax l = some a) :
    a ∈ l ∧ ∀ b ∈ l, b ≤ a := by
  cases l with
  | nil => exact absurd h (by simp [pyMax])
  | cons x xs =>
    have ha : xs.foldl max x = a := by
      have := h
      simp only [pyMax, Option.some.injEq] at this
      exact this
    constructor
    · rcases foldl_max_mem xs x with he | he
      · rw [← ha, he]
        exact List.mem_cons_self x xs
      · rw [← ha]
        exact List.mem_cons_of_mem x he
    · intro b hb
      rcases List.mem_cons.mp hb with rfl | hb2
      · rw [← ha]
        exact foldl_max_init_le xs b
      · rw [← ha]
        exact foldl_max_mem_le xs x b hb2

/-- The scene state `create_temp_sound_mixdown` reads and writes. -/
structure Scene where
  frame_start : ℤ
  frame_end : ℤ
  strips : List Strip
deriving DecidableEq

/-- The comprehension filter of source lines 324-330: unselected strips
whose boundaries both lie inside `[audio_start, audio_end]`. -/
def mixdownInRange (a b : ℤ) (sel : List ℕ) (s : Strip) : Bool :=
  decide (a ≤ s.frame_final_start) && decide (s.frame_final_start ≤ b) &&
    decide (a ≤ s.frame_final_end) && decide (s.frame_final_end ≤ b) &&
    !(decide (s.id ∈ sel))

/-- `create_temp_sound_mixdown(selected_strips)` (source lines 310-352):
compute the selection's frame range, narrow the scene range to it, mute
the unselected in-range strips, mix down (file output only), unmute
them, restore the scene range, re-select the selection, and return the
range.  Python's `min`/`max` on an empty selection would raise; that
case returns the scene unchanged with a junk range here and is excluded
by the theorems' nonempty-selection hypothesis. -/
def create_temp_sound_mixdown (sc : Scene) (sel : List ℕ) : Scene × ℤ × ℤ :=
  match pyMin ((sc.strips.filter (fun s => decide (s.id ∈ sel))).map
      (fun s => s.frame_final_start)),
    pyMax ((sc.strips.filter (fun s => decide (s.id ∈ sel))).map
      (fun s => s.frame_final_end)) with
  | some a, some b =>
    let sc1 : Scene := { sc with frame_start := a, frame_end := b }
    let sc2 : Scene := { sc1 with strips := sc1.strips.map (fun s =>
        if mixdownInRange a b sel s then { s with mute := true } else s) }
    let sc3 : Scene := { sc2 with strips := sc2.strips.map (fun s =>
        if mixdownInRange a b sel s then { s with mute := false } else s) }
    let sc4 : Scene :=
      { sc3 with frame_start := sc.frame_start, frame_end := sc.frame_end }
    let sc5 : Scene := { sc4 with strips := sc4.strips.map (fun s =>
        if decide (s.id ∈ sel) then { s with select := true } else s) }
    (sc5, a, b)
  | _, _ => (sc, 0, 0)

/-- The mute/unmute/re-select pipeline collapses to one strip map:
in-range unselected strips end unmuted, selected strips end selected,
everything else keeps its flags. -/
theorem mixdown_net (a b : ℤ) (sel : List ℕ) (l : List Strip) :
    ((l.map (fun s =>
        if mixdownInRange a b sel s then { s with mute := true } else s)).map
          (fun s =>
        if mixdownInRange a b sel s then { s with mute := false } else s)).map
      (fun s => if decide (s.id ∈ sel) then { s with select := true } else s) =
    l.map (fun s =>
      { s with mute := (if mixdownInRange a b sel s then false else s.mute),
               select := (if decide (s.id ∈ sel) then true else s.select) }) := by
  rw [List.map_map, List.map_map]
  refine List.map_congr_left ?_
  intro s hs
  simp only [Function.comp_apply]
  by_cases h1 : mixdownInRange a b sel s = true
  · rw [if_pos h1]
    have h1' : mixdownInRange a b sel
        ⟨s.id, s.frame_final_start, s.frame_final_end, s.select, true, s.lock⟩ =
          true := h1
    rw [if_pos h1']
    by_cases h2 : decide (s.id ∈ sel) = true
    · have h2' : decide ((⟨s.id, s.frame_final_start, s.frame_final_end, s.select,
          false, s.lock⟩ : Strip).id ∈ sel) = true := h2
      rw [if_pos h2', if_pos h1, if_pos h2]
    · have h2' : ¬ decide ((⟨s.id, s.frame_final_start, s.frame_final_end, s.select,
          false, s.lock⟩ : Strip).id ∈ sel) = true := h2
      rw [if_neg h2', if_pos h1, if_neg h2]
  · rw [if_neg h1, if_neg h1]
    by_cases h2 : decide (s.id ∈ sel) = true
    · rw [if_pos h2, if_neg h1, if_pos h2]
    · rw [if_neg h2, if_neg h1, if_neg h2]

/-- `pyMin` is defined on any list with a member. -/
theorem pyMin_of_mem (l : List ℤ) (x : ℤ) (hx : x ∈ l) : ∃ a, pyMin l = some a := by
  cases l with
  | nil => exact absurd hx (List.not_mem_nil x)
  | cons y ys => exact ⟨ys.foldl min y, rfl⟩

/-- `pyMax` is defined on any list with a member. -/
theorem pyMax_of_mem (l : List ℤ) (x : ℤ) (hx : x ∈ l) : ∃ a, pyMax l = some a := by
  cases l with
  | nil => exact absurd hx (List.not_mem_nil x)
  | cons y ys => exact ⟨ys.foldl max y, rfl⟩

/-- With a nonempty selection the mixdown helper reduces to one strip
map between the original scene bounds. -/
theorem create_temp_sound_mixdown_eq (sc : Scene) (sel : List ℕ) (a b : ℤ)
    (ha : pyMin ((sc.strips.filter (fun s => decide (s.id ∈ sel))).map
        (fun s => s.frame_final_start)) = some a)
    (hb : pyMax ((sc.strips.filter (fun s => decide (s.id ∈ sel))).map
        (fun s => s.frame_final_end)) = some b) :
    create_temp_sound_mixdown sc sel =
      (⟨sc.frame_start, sc.frame_end,
        sc.strips.map (fun s =>
          { s with mute := (if mixdownInRange a b sel s then false else s.mute),
                   select := (if decide (s.id ∈ sel) then true else s.select) })⟩,
        a, b) := by
  simp only [create_temp_sound_mixdown, ha, hb]
  rw [← mixdown_net]

/-- C10: with a nonempty selection, `create_temp_sound_mixdown`
restores the scene frame range, leaves every in-range unselected strip
unmuted on return, re-selects the whole input selection, and returns
exactly the minimum `frame_final_start` and maximum `frame_final_end`
over the selected strips; the net strip change is the single map shown
in the third conjunct. -/
theorem create_temp_sound_mixdown_spec (sc : Scene) (sel : List ℕ)
    (h : ∃ s ∈ sc.strips, s.id ∈ sel) :
    (create_temp_sound_mixdown sc sel).1.frame_start = sc.frame_start ∧
    (create_temp_sound_mixdown sc sel).1.frame_end = sc.frame_end ∧
    (create_temp_sound_mixdown sc sel).1.strips = sc.strips.map (fun s =>
      { s with
        mute := (if mixdownInRange (create_temp_sound_mixdown sc sel).2.1
            (create_temp_sound_mixdown sc sel).2.2 sel s then false else s.mute),
        select := (if decide (s.id ∈ sel) then true else s.select) }) ∧
    (∀ s ∈ (create_temp_sound_mixdown sc sel).1.strips,
      mixdownInRange (create_temp_sound_mixdown sc sel).2.1
        (create_temp_sound_mixdown sc sel).2.2 sel s = true → s.mute = false) ∧
    (∀ s ∈ (create_temp_sound_mixdown sc sel).1.strips,
      s.id ∈ sel → s.select = true) ∧
    (∀ s ∈ sc.strips, s.id ∈ sel →
      (create_temp_sound_mixdown sc sel).2.1 ≤ s.frame_final_start ∧
        s.frame_final_end ≤ (create_temp_sound_mixdown sc sel).2.2) ∧
    (∃ s ∈ sc.strips, s.id ∈ sel ∧
      s.frame_final_start = (create_temp_sound_mixdown sc sel).2.1) ∧
    (∃ s ∈ sc.strips, s.id ∈ sel ∧
      s.frame_final_end = (create_temp_sound_mixdown sc sel).2.2) := by
  obtain ⟨w, hw, hwsel⟩ := h
  have hwf : w ∈ sc.strips.filter (fun s => decide (s.id ∈ sel)) :=
    List.mem_filter.mpr ⟨hw, by simpa using hwsel⟩
  obtain ⟨a, ha⟩ := pyMin_of_mem
    ((sc.strips.filter (fun s => decide (s.id ∈ sel))).map
      (fun s => s.frame_final_start)) w.frame_final_start
    (List.mem_map.mpr ⟨w, hwf, rfl⟩)
  obtain ⟨b, hb⟩ := pyMax_of_mem
    ((sc.strips.filter (fun s => decide (s.id ∈ sel))).map
      (fun s => s.frame_final_end)) w.frame_final_end
    (List.mem_map.mpr ⟨w, hwf, rfl⟩)
  obtain ⟨hamem, hale⟩ := pyMin_spec _ a ha
  obtain ⟨hbmem, hble⟩ := pyMax_spec _ b hb
  rw [create_temp_sound_mixdown_eq sc sel a b ha hb]
  refine ⟨rfl, rfl, rfl, ?_, ?_, ?_, ?_, ?_⟩
  · intro s hs hcond
    obtain ⟨t, ht, rfl⟩ := List.mem_map.mp hs
    have hcond' : mixdownInRange a b sel t = true := hcond
    show (if mixdownInRange a b sel t then false else t.mute) = false
    rw [if_pos hcond']
  · intro s hs hsel
    obtain ⟨t, ht, rfl⟩ := List.mem_map.mp hs
    have hsel' : decide (t.id ∈ sel) = true := by
      simpa using hsel
    show (if decide (t.id ∈ sel) then true else t.select) = true
    rw [if_pos hsel']
  · intro s hs hsel
    constructor
    · exact hale s.frame_final_start
        (List.mem_map.mpr ⟨s, List.mem_filter.mpr ⟨hs, by simpa using hsel⟩, rfl⟩)
    · exact hble s.frame_final_end
        (List.mem_map.mpr ⟨s, List.mem_filter.mpr ⟨hs, by simpa using hsel⟩, rfl⟩)
  · obtain ⟨t, htf, hta⟩ := List.mem_map.mp hamem
    obtain ⟨ht, htsel⟩ := List.mem_filter.mp htf
    exact ⟨t, ht, by simpa using htsel, hta⟩
  · obtain ⟨t, htf, htb⟩ := List.mem_map.mp hbmem
    obtain ⟨ht, htsel⟩ := List.mem_filter.mp htf
    exact ⟨t, ht, by simpa using htsel, htb⟩

/-- Witness for C10 on a two-strip scene with one selected strip. -/
theorem create_temp_sound_mixdown_spec_witness :
    (∃ s ∈ (⟨0, 100, [⟨0, 10, 20, true, false, false⟩,
        ⟨1, 12, 18, false, true, false⟩]⟩ : Scene).strips, s.id ∈ [0]) ∧
    ((create_temp_sound_mixdown
        ⟨0, 100, [⟨0, 10, 20, true, false, false⟩, ⟨1, 12, 18, false, true, false⟩]⟩
        [0]).1.frame_start = 0 ∧
      (create_temp_sound_mixdown
        ⟨0, 100, [⟨0, 10, 20, true, false, false⟩, ⟨1, 12, 18, false, true, false⟩]⟩
        [0]).2 = (10, 20)) := by
  have hmain := create_temp_sound_mixdown_spec
    ⟨0, 100, [⟨0, 10, 20, true, false, false⟩, ⟨1, 12, 18, false, true, false⟩]⟩
    [0] (by decide)
  refine ⟨by decide, hmain.1, ?_⟩
  decide

/-! ## Operator result reporting (source lines 208-224 and 566-572)

Only the result-status control flow is embedded, as a function of the
external process's exit code; an uncaught Python exception is an
`Except.error` escaping the operator. -/

/-- `subprocess.run(command, check=True)`: raises `CalledProcessError`
on a non-zero exit, otherwise hands back the exit code. -/
def subprocess_run_check (exitCode : ℤ) : Except String ℤ :=
  if exitCode = 0 then Except.ok exitCode
  else Except.error "CalledProcessError"

/-- The result-status flow of `SEQUENCER_OT_auto_editor_audio.execute`
(source lines 208-277): `check=True` on line 217 raises before the
`returncode != 0` test of lines 219-224 can run, so that CANCELLED
branch is unreachable and a failing process escapes as an exception;
exit code 0 reaches the FINISHED return of line 277 (the timeline work
in between is not status-relevant and not modelled here). -/
def auto_editor_audio_status (exitCode : ℤ) : Except String OpStatus :=
  match subprocess_run_check exitCode with
  | Except.error e => Except.error e
  | Except.ok rc =>
    if rc ≠ 0 then Except.ok OpStatus.CANCELLED
    else Except.ok OpStatus.FINISHED

/-- The result-status flow of `SEQUENCER_OT_speechnorm.execute` (source
lines 546-586): the `try/except CalledProcessError` of lines 568-572
catches the failure and returns CANCELLED; otherwise FINISHED. -/
def speechnorm_status (ffmpegExitCode : ℤ) : Except String OpStatus :=
  match subprocess_run_check ffmpegExitCode with
  | Except.error _ => Except.ok OpStatus.CANCELLED
  | Except.ok _ => Except.ok OpStatus.FINISHED

/-- C9 (code bug): when auto-editor exits non-zero,
`SEQUENCER_OT_auto_editor_audio.execute` raises an uncaught
`CalledProcessError` rather than reporting CANCELLED — its own
`returncode != 0 → CANCELLED` branch is dead code — while the
speechnorm operator catches the same failure and does report CANCELLED,
and reports FINISHED on success. -/
theorem auto_editor_audio_uncaught :
    auto_editor_audio_status 1 = Except.error "CalledProcessError" ∧
    (∀ r : OpStatus, auto_editor_audio_status 1 ≠ Except.ok r) ∧
    speechnorm_status 1 = Except.ok OpStatus.CANCELLED ∧
    speechnorm_status 0 = Except.ok OpStatus.FINISHED := by
  refine ⟨rfl, ?_, rfl, rfl⟩
  intro r
  simp [auto_editor_audio_status, subprocess_run_check]
